import Mathlib

/-!
Verification of the swgl-replay / gl-replay recording and replay engine.

This file gives a shallow embedding, in Lean, of the parts of the code that
the verified properties are about:

* the run-length codec (`src/rle.rs`: `write_general`, `write_u8`,
  `write_u32`, `read_general`, `read_u8`, `read_u32`), together with the
  ULEB128 varint codec it uses for byte-stream counts;
* the variable-length stream's alignment discipline
  (`gl-replay/src/var.rs`: `align_for`, `marked_write_all_aligned`,
  `borrow_aligned_slice`);
* the pixel-block codec (`src/pixels.rs`: `Pixels::serialize`,
  `PixelsForm::deserialize`);
* the recording header validation (`src/file_stream.rs`:
  `FileRecording::open`, `Header::check`);
* the replay return-value checks and the replay dispatch table
  (`gl-replay/src/replay.rs`);
* the texture-upload argument resolution
  (`gl-replay/src/recorder/impl_gl.rs`: `tex_image_data_to_call`);
* the `dump-commands` command-line tool (`src/bin/dump-commands.rs`).

Machine integers (`u8`, `u32`, `usize`) are modelled as `Nat` with explicit
`% 2 ^ w` at the points where the source can overflow or truncate; byte
streams are `List Nat` whose elements are below 256.  Loops whose progress
measure is data-dependent are written with an explicit fuel parameter, and a
fuel-irrelevance theorem shows the fuel bound is never the deciding factor.
-/

namespace GlReplay

/-- Error taxonomy of deserialization (`var.rs`, enum `DeserializeError`). -/
inductive DeserializeError where
  | unexpectedEof
  | badUTF8
  | leb128ReadError
deriving DecidableEq

instance {ε α : Type} [DecidableEq ε] [DecidableEq α] : DecidableEq (Except ε α)
  | .error e₁, .error e₂ =>
    if h : e₁ = e₂ then isTrue (congrArg Except.error h)
    else isFalse (fun hc => h (Except.error.inj hc))
  | .error _, .ok _ => isFalse (fun hc => Except.noConfusion hc)
  | .ok _, .error _ => isFalse (fun hc => Except.noConfusion hc)
  | .ok a₁, .ok a₂ =>
    if h : a₁ = a₂ then isTrue (congrArg Except.ok h)
    else isFalse (fun hc => h (Except.ok.inj hc))

/-- ULEB128 encoding of an unsigned value (external `leb128` crate,
`write::unsigned`): emit 7 bits per byte, low bits first, setting the high
bit on every byte except the last.  The first argument is fuel; `n` itself
is always enough, since the value shrinks by a factor of 128 per byte. -/
def leb_write_aux : Nat → Nat → List Nat
  | 0, n => [n % 128]
  | fuel + 1, n => if n < 128 then [n] else (n % 128 + 128) :: leb_write_aux fuel (n / 128)

/-- ULEB128 encoding of `n` as a byte list. -/
def leb_write (n : Nat) : List Nat := leb_write_aux n n

/-- ULEB128 decoding (external `leb128` crate, `read::unsigned`): accumulate
7 bits per byte until a byte with a clear high bit; fail at end of input. -/
def leb_read_aux : List Nat → Nat → Nat → Except DeserializeError (Nat × List Nat)
  | [], _, _ => .error .unexpectedEof
  | b :: rest, shift, acc =>
    if b < 128 then .ok (acc + b * 2 ^ shift, rest)
    else leb_read_aux rest (shift + 7) (acc + b % 128 * 2 ^ shift)

/-- ULEB128 decoding of the front of `buf`. -/
def leb_read (buf : List Nat) : Except DeserializeError (Nat × List Nat) :=
  leb_read_aux buf 0 0

/-- Number of initial elements of the list equal to `v`
(`data.iter().take_while(|&&v| v == lead).count()` in `write_general`). -/
def count_leading (v : Nat) : List Nat → Nat
  | [] => 0
  | x :: xs => if x = v then count_leading v xs + 1 else 0

/-- State of the literal scan in `write_general`: the literal length so far,
the length of the trailing streak, and the streak's value. -/
structure ScanResult where
  lit : Nat
  run : Nat
  lead : Nat
deriving DecidableEq

/-- The literal-scanning loop of `write_general` (`for elt in literal_tail`):
walk the input, counting scanned elements in `lit` and the current trailing
streak in `run`/`lead`, stopping as soon as a streak reaches length 4. -/
def scan_literal : Nat → Nat → Nat → List Nat → ScanResult
  | lead, run, lit, [] => ⟨lit, run, lead⟩
  | lead, run, lit, e :: rest =>
    if e = lead then
      if run + 1 ≥ 4 then ⟨lit + 1, run + 1, lead⟩
      else scan_literal lead (run + 1) (lit + 1) rest
    else scan_literal e 1 (lit + 1) rest

/-- The main loop of `write_general` (`src/rle.rs`).  `lead`/`runLength` are
the value and length of the pending run and `data` is the input that follows
it.  Each iteration extends the run over equal elements, emits the run as
`wc count ++ [value]`, then scans for the next streak of length 4: if none
exists the remainder is one final literal, otherwise the scanned prefix
(minus the streak) is emitted as a literal and the streak becomes the next
run.  `recur` is the next loop iteration; `rle_loop_aux` below ties the
knot with a fuel argument, for which `data.length + 1` is always enough
since every iteration consumes at least one element. -/
def rle_loop_body (recur : Nat → Nat → List Nat → List Nat) (wc : Nat → List Nat)
    (lead runLength : Nat) (data : List Nat) : List Nat :=
  wc (runLength + count_leading lead data) ++ [lead] ++
    match data.drop (count_leading lead data) with
    | [] => []
    | h :: t =>
      if (scan_literal h 1 1 t).run < 4 then
        wc (scan_literal h 1 1 t).lit ++ (h :: t)
      else
        wc ((scan_literal h 1 1 t).lit - (scan_literal h 1 1 t).run) ++
          (h :: t).take ((scan_literal h 1 1 t).lit - (scan_literal h 1 1 t).run) ++
          recur (scan_literal h 1 1 t).lead (scan_literal h 1 1 t).run
            ((h :: t).drop (scan_literal h 1 1 t).lit)

def rle_loop_aux (wc : Nat → List Nat) : Nat → Nat → Nat → List Nat → List Nat
  | 0, _, _, _ => []
  | fuel + 1, lead, runLength, data =>
    rle_loop_body (rle_loop_aux wc fuel) wc lead runLength data

/-- `write_general` (`src/rle.rs`): run-length encode `data`, writing counts
with `wc` and each value as a single stream element.  Starts with a run if
the input is non-empty. -/
def write_general (wc : Nat → List Nat) (data : List Nat) : List Nat :=
  match data with
  | [] => []
  | h :: t => rle_loop_aux wc (t.length + 1) h 1 t

/-- `write_u8` (`src/rle.rs`): byte-stream run-length encoding, with ULEB128
counts. -/
def write_u8 (data : List Nat) : List Nat := write_general leb_write data

/-- The count writer of `write_u32` (`src/rle.rs`): the count is written as
a single `u32` word (`count as u32`, truncating). -/
def write_count_u32 (n : Nat) : List Nat := [n % 2 ^ 32]

/-- `write_u32` (`src/rle.rs`), viewed at word granularity: each count and
each value occupies one aligned 32-bit word of the output. -/
def write_u32 (data : List Nat) : List Nat := write_general write_count_u32 data

/-- The loop of `read_general` (`src/rle.rs`): alternately read a count and
one value and expand the run, then read a count and that many raw elements
as a literal, until the buffer is empty.  Counts are read with `rc`.
`recur` is the next loop iteration; `read_general_aux` below ties the knot
with a fuel argument, for which `buf.length + 1` is always enough since
every iteration consumes at least one element (proved below). -/
def read_general_step (recur : List Nat → Except DeserializeError (List Nat))
    (rc : List Nat → Except DeserializeError (Nat × List Nat)) (buf : List Nat) :
    Except DeserializeError (List Nat) :=
  match rc buf with
  | .error e => .error e
  | .ok (count, buf1) =>
    match buf1 with
    | [] => .error .unexpectedEof
    | v :: buf2 =>
      match buf2 with
      | [] => .ok (List.replicate count v)
      | _ :: _ =>
        match rc buf2 with
        | .error e => .error e
        | .ok (count2, buf3) =>
          if count2 ≤ buf3.length then
            match recur (buf3.drop count2) with
            | .error e => .error e
            | .ok out => .ok (List.replicate count v ++ buf3.take count2 ++ out)
          else .error .unexpectedEof

def read_general_aux (rc : List Nat → Except DeserializeError (Nat × List Nat)) :
    Nat → List Nat → Except DeserializeError (List Nat)
  | _, [] => .ok []
  | 0, _ :: _ => .error .unexpectedEof
  | fuel + 1, b :: bs => read_general_step (read_general_aux rc fuel) rc (b :: bs)

/-- `read_general` (`src/rle.rs`), with the expanded output returned as a
list (the `RleSink` for `Vec` appends runs and literals in order). -/
def read_general (rc : List Nat → Except DeserializeError (Nat × List Nat))
    (buf : List Nat) : Except DeserializeError (List Nat) :=
  read_general_aux rc (buf.length + 1) buf

/-- `read_u8` (`src/rle.rs`): decode a byte stream with ULEB128 counts. -/
def read_u8 (buf : List Nat) : Except DeserializeError (List Nat) :=
  read_general leb_read buf

/-- The count reader of `read_u32` (`src/rle.rs`): split one `u32` word off
the front of the buffer. -/
def read_count_u32 : List Nat → Except DeserializeError (Nat × List Nat)
  | [] => .error .unexpectedEof
  | w :: rest => .ok (w, rest)

/-- `read_u32` (`src/rle.rs`) at word granularity: decode a word stream
whose counts are single words.  (The byte-oriented sink is applied by the
pixel codec below.) -/
def read_u32 (buf : List Nat) : Except DeserializeError (List Nat) :=
  read_general read_count_u32 buf

/-! ### The variable-length stream's alignment discipline (`gl-replay/src/var.rs`) -/

/-- The padding length computed by `MarkedWrite::align_for` and the skip
computed by `borrow_aligned_slice`: `(0 - offset) & (align - 1)` in
wrapping 64-bit `usize` arithmetic. -/
def pad_len (align offset : Nat) : Nat :=
  Nat.land ((2 ^ 64 - offset % 2 ^ 64) % 2 ^ 64) (align - 1)

/-- `MarkedWrite::align_for` (`gl-replay/src/var.rs`): append `'P'` (0x50)
padding bytes until the stream offset is a multiple of `align`.  The stream
is modelled as the list of bytes written so far, its `mark` being its
length.  (The source asserts the padding fits the fixed 64-byte padding
buffer; a theorem below shows the bound is never exceeded for the supported
alignments, so the assertion cannot fire.) -/
def align_for (align : Nat) (s : List Nat) : List Nat :=
  let padding := pad_len align s.length
  if padding > 0 then s ++ List.replicate padding 0x50 else s

/-- `MarkedWrite::marked_write_all_aligned` (`gl-replay/src/var.rs`): align
for the element type, then append the payload bytes; return the new stream
and the payload's start offset. -/
def marked_write_all_aligned (align : Nat) (payload : List Nat) (s : List Nat) :
    List Nat × Nat :=
  let s1 := align_for align s
  (s1 ++ payload, s1.length)

/-! ### Pixel blocks (`src/pixels.rs`) -/

/-- `Pixels` (`src/pixels.rs`): a rectangular block of pixel data. -/
structure Pixels where
  width : Nat
  height : Nat
  depth : Nat
  format : Nat
  pixel_type : Nat
  bytes : List Nat
deriving DecidableEq

/-- Modelled from the spec: the number of color components of a GL pixel
format, as defined by the external GPU-interface crate (`gleam`), which is
outside this repository.  Only the combinations the codec can meet are
listed; unknown formats yield 0 components. -/
def format_components (format : Nat) : Nat :=
  if format = 0x1906 then 1        -- ALPHA
  else if format = 0x1903 then 1   -- RED
  else if format = 0x1909 then 1   -- LUMINANCE
  else if format = 0x1907 then 3   -- RGB
  else if format = 0x1908 then 4   -- RGBA
  else if format = 0x80E1 then 4   -- BGRA
  else 0

/-- Modelled from the spec: the byte width of a GL pixel data type, as
defined by the external GPU-interface crate (`gleam`). -/
def pixel_type_width (ty : Nat) : Nat :=
  if ty = 0x1401 then 1            -- UNSIGNED_BYTE
  else if ty = 0x1400 then 1       -- BYTE
  else if ty = 0x1406 then 4       -- FLOAT
  else if ty = 0x1405 then 4       -- UNSIGNED_INT
  else if ty = 0x1404 then 4       -- INT
  else if ty = 0x8D61 then 2       -- HALF_FLOAT
  else 0

/-- Modelled from the spec: `gl::calculate_bytes_per_pixel` from the
external GPU-interface crate — components times component width. -/
def calculate_bytes_per_pixel (format ty : Nat) : Nat :=
  format_components format * pixel_type_width ty

/-- The little-endian byte representation of one 32-bit word (the host is
little-endian x86-64, and `Simple` types are serialized as their in-memory
bit pattern). -/
def u32_le_bytes (w : Nat) : List Nat :=
  [w % 2 ^ 8, w / 2 ^ 8 % 2 ^ 8, w / 2 ^ 16 % 2 ^ 8, w / 2 ^ 24 % 2 ^ 8]

/-- View a word slice as its underlying bytes (`raw::slice_as_bytes` on a
`&[u32]`, on the little-endian host). -/
def words_to_bytes (ws : List Nat) : List Nat := (ws.map u32_le_bytes).flatten

/-- Reinterpret a byte buffer as 32-bit words
(`std::slice::from_raw_parts(.. as *const u32, ..)` on the little-endian
host); a trailing partial word is dropped. -/
def bytes_to_words : List Nat → List Nat
  | b0 :: b1 :: b2 :: b3 :: rest =>
    (b0 + 2 ^ 8 * b1 + 2 ^ 16 * b2 + 2 ^ 24 * b3) :: bytes_to_words rest
  | _ => []

/-- `Pixels::serialize` (`src/pixels.rs`): align the stream to 4 bytes, take
the mark, write width, height, depth, format, pixel type as ULEB128, then
run-length compress the pixel bytes (byte path for 1-byte pixels, word path
for 4-byte pixels), write the compressed length as ULEB128, re-align to 4
bytes in the word case, and append the compressed data.  Returns the new
stream and the mark; `none` models the assertion failures and the `todo!()`
for unsupported pixel sizes, which abort the process. -/
def pixels_serialize (p : Pixels) (s : List Nat) : Option (List Nat × Nat) :=
  let s1 := align_for 4 s
  let mark := s1.length
  let s2 := s1 ++ leb_write p.width ++ leb_write p.height ++ leb_write p.depth ++
    leb_write p.format ++ leb_write p.pixel_type
  let bpp := calculate_bytes_per_pixel p.format p.pixel_type
  if bpp * p.width * p.height * p.depth ≠ p.bytes.length then none
  else
    let compressed? : Option (List Nat) :=
      if bpp = 1 then some (write_u8 p.bytes)
      else if bpp = 4 then
        if p.bytes.length % 4 = 0 then
          some (words_to_bytes (write_u32 (bytes_to_words p.bytes)))
        else none
      else none
    match compressed? with
    | none => none
    | some compressed =>
      let s3 := s2 ++ leb_write compressed.length
      let s4 := if bpp = 4 then align_for 4 s3 else s3
      some (s4 ++ compressed, mark)

/-- `PixelsForm::deserialize` (`src/pixels.rs`): read the six ULEB128 header
fields, then decompress — the byte path consumes the whole remaining
buffer, the word path borrows an aligned word slice of the stated
compressed length (`borrow_aligned_slice` skips to 4-byte alignment
relative to the buffer's address, here `addr` plus the bytes consumed so
far) and decodes it.  `none` models both deserialize errors and the
assertion/`todo!()` panics. -/
def pixels_deserialize (addr : Nat) (buf : List Nat) : Option Pixels :=
  match leb_read buf with
  | .error _ => none
  | .ok (width, b1) =>
  match leb_read b1 with
  | .error _ => none
  | .ok (height, b2) =>
  match leb_read b2 with
  | .error _ => none
  | .ok (depth, b3) =>
  match leb_read b3 with
  | .error _ => none
  | .ok (format, b4) =>
  match leb_read b4 with
  | .error _ => none
  | .ok (pixel_type, b5) =>
  match leb_read b5 with
  | .error _ => none
  | .ok (compressed_length, b6) =>
  let bpp := calculate_bytes_per_pixel format pixel_type
  if compressed_length % bpp ≠ 0 ∨ bpp = 0 then none
  else
    let bytes? : Option (List Nat) :=
      if bpp = 1 then
        match read_u8 b6 with
        | .error _ => none
        | .ok bytes => some bytes
      else if bpp = 4 then
        let consumed := buf.length - b6.length
        let skip := pad_len 4 (addr + consumed)
        if b6.length < skip + 4 * (compressed_length / 4) then none
        else
          match read_u32 (bytes_to_words ((b6.drop skip).take (4 * (compressed_length / 4)))) with
          | .error _ => none
          | .ok words => some (words_to_bytes words)
      else none
    match bytes? with
    | none => none
    | some bytes =>
      if bytes.length ≠ bpp * width * height * depth then none
      else some ⟨width, height, depth, format, pixel_type, bytes⟩

/-! ### Recording files and header validation (`src/file_stream.rs`) -/

/-- The on-disk header at the start of the `calls` file
(`src/file_stream.rs`, `struct Header`, `repr(packed)`). -/
structure Header where
  magic : Nat
  size_of_usize : Nat
  size_of_call : Nat
  max_alignment : Nat
  padding : Nat
deriving DecidableEq

/-- `Header::for_call` (`src/file_stream.rs`): the expected header for a
`Call` type of the given size and maximum alignment, on the 64-bit host
(`size_of::<usize>() = 8`), with the literal padding byte `'P'`.  `none`
models the assertion failures (header size not a multiple of the alignment,
or a `Call` too large for the single-byte size field). -/
def header_for_call (magic size_of_call max_alignment : Nat) : Option Header :=
  if 8 % max_alignment = 0 ∧ size_of_call ≤ 255 then
    some ⟨magic, 8, size_of_call, max_alignment, 0x50⟩
  else none

/-- `Header::check` (`src/file_stream.rs`): compute the expected header,
copy the actual header's padding byte into it, and compare for equality.
`some true` is `Ok(())`, `some false` the mismatch error, `none` a panic in
`Header::for_call`. -/
def header_check (actual : Header) (magic size_of_call max_alignment : Nat) : Option Bool :=
  match header_for_call magic size_of_call max_alignment with
  | none => none
  | some expected =>
    some (decide (Header.mk expected.magic expected.size_of_usize expected.size_of_call
      expected.max_alignment actual.padding = actual))

/-- The error cases of `FileRecording::open`. -/
inductive OpenError where
  | zeroLengthCalls
  | ioEof
  | panicked
  | headerMismatch
  | notMultiple
deriving DecidableEq

/-- Decode the 8 raw header bytes into a `Header` (the header is read by
byte reinterpretation on the little-endian host). -/
def parse_header (bytes : List Nat) : Header :=
  ⟨bytes.getD 0 0 + 2 ^ 8 * bytes.getD 1 0 + 2 ^ 16 * bytes.getD 2 0 + 2 ^ 24 * bytes.getD 3 0,
   bytes.getD 4 0, bytes.getD 5 0, bytes.getD 6 0, bytes.getD 7 0⟩

/-- Split a byte list into consecutive `k`-byte records (the bulk
reinterpretation of the `calls` file as a `[Call]` array).  The first `Nat`
is fuel; the list's length is always enough. -/
def chunk_calls (k : Nat) : Nat → List Nat → List (List Nat)
  | 0, _ => []
  | _, [] => []
  | fuel + 1, l => l.take k :: chunk_calls k fuel (l.drop k)

/-- `FileRecording::open` (`src/file_stream.rs`): reject a zero-length
`calls` file with its dedicated diagnostic; read and validate the header;
require the remaining bytes to be a whole number of `Call` records; return
the raw call records and the variable buffer. -/
def file_recording_open (magic size_of_call max_alignment : Nat)
    (calls_bytes variable_bytes : List Nat) :
    Except OpenError (List (List Nat) × List Nat) :=
  if calls_bytes.length = 0 then .error .zeroLengthCalls
  else if calls_bytes.length < 8 then .error .ioEof
  else
    let actual := parse_header (calls_bytes.take 8)
    match header_check actual magic size_of_call max_alignment with
    | none => .error .panicked
    | some false => .error .headerMismatch
    | some true =>
      let rest := calls_bytes.drop 8
      if rest.length % size_of_call ≠ 0 then .error .notMultiple
      else .ok (chunk_calls size_of_call rest.length rest, variable_bytes)

/-! ### The replay dispatch table and return-value validation
(`gl-replay/src/replay.rs`, `replay_one_with_locals`) -/

/-- A subset of the `Gl` trait's methods, covering the variants modelled
below. -/
inductive GlMethod where
  | active_texture
  | bind_buffer
  | bind_texture
  | gen_buffers
  | create_shader
  | get_uniform_location
  | uniform_4fv
  | uniform_matrix_2fv
  | uniform_matrix_3fv
  | uniform_matrix_4fv
  | uniform_1iv
deriving DecidableEq

/-- A subset of the `Call` union's variants (`gl-replay/src/call.rs`). -/
inductive CallVariant where
  | active_texture
  | bind_buffer
  | bind_texture
  | gen_buffers
  | create_shader
  | get_uniform_location
  | uniform_4fv
  | uniform_matrix_2fv
  | uniform_matrix_3fv
  | uniform_matrix_4fv
  | uniform_1iv
deriving DecidableEq

/-- The `Gl` method whose interception records each variant
(`gl-replay/src/recorder/impl_gl.rs`: method `m` appends `Call::m`). -/
def recorded_method : CallVariant → GlMethod
  | .active_texture => .active_texture
  | .bind_buffer => .bind_buffer
  | .bind_texture => .bind_texture
  | .gen_buffers => .gen_buffers
  | .create_shader => .create_shader
  | .get_uniform_location => .get_uniform_location
  | .uniform_4fv => .uniform_4fv
  | .uniform_matrix_2fv => .uniform_matrix_2fv
  | .uniform_matrix_3fv => .uniform_matrix_3fv
  | .uniform_matrix_4fv => .uniform_matrix_4fv
  | .uniform_1iv => .uniform_1iv

/-- The `Gl` method `replay_one_with_locals` invokes on the target for each
variant (`gl-replay/src/replay.rs` match arms); `none` is an
`unimplemented!` arm.  Note the `uniform_matrix_2fv` arm invokes
`gl.uniform_matrix_4fv` (replay.rs line 689). -/
def replayed_method : CallVariant → Option GlMethod
  | .active_texture => some .active_texture
  | .bind_buffer => some .bind_buffer
  | .bind_texture => some .bind_texture
  | .gen_buffers => some .gen_buffers
  | .create_shader => some .create_shader
  | .get_uniform_location => some .get_uniform_location
  | .uniform_4fv => some .uniform_4fv
  | .uniform_matrix_2fv => some .uniform_matrix_4fv
  | .uniform_matrix_3fv => some .uniform_matrix_3fv
  | .uniform_matrix_4fv => some .uniform_matrix_4fv
  | .uniform_1iv => none

/-- What a replayed call's validation does: either nothing (the values
matched) or an abort carrying the reported method name, the call's serial
number, and whether the two values were dumped to standard error. -/
inductive ReplayOutcome where
  | silent
  | terminated (method : GlMethod) (serial : Nat) (values_dumped : Bool)
deriving DecidableEq

/-- `check_return_value!` (`gl-replay/src/replay.rs`): compare the recorded
expected scalar with the target's actual result; on mismatch print the
method name, serial number and both values to standard error and panic. -/
def check_return_value {α : Type} [DecidableEq α] (method : GlMethod) (serial : Nat)
    (expected actual : α) : ReplayOutcome :=
  if expected = actual then .silent else .terminated method serial true

/-- `check_returned_vector!` (`gl-replay/src/replay.rs`): compare the
recorded expected sequence with the actual one; on mismatch print the
method name and serial number, dumping the two sequences only when their
combined length is under 1000, and panic. -/
def check_returned_vector {α : Type} [DecidableEq α] (method : GlMethod) (serial : Nat)
    (expected actual : List α) : ReplayOutcome :=
  if expected = actual then .silent
  else .terminated method serial (decide (expected.length + actual.length < 1000))

/-! ### Texture-upload argument resolution
(`gl-replay/src/recorder/impl_gl.rs`) -/

/-- `TexImageData` (`gl-replay/src/call.rs`): either a captured client
buffer (modelled by the source address and captured length) or a raw byte
offset into the bound pixel-unpack buffer. -/
inductive TexImageData where
  | Buf (addr : Nat) (len : Nat)
  | Offset (offset : Nat)
deriving DecidableEq

/-- Modelled from the spec: `gleam::gl::calculate_length`, the
pixel-transfer byte sizing formula of the external GPU-interface crate —
bytes per pixel times width, height and depth. -/
def calculate_length (w h d format ty : Nat) : Nat :=
  calculate_bytes_per_pixel format ty * w * h * d

/-- `tex_image_data_to_call` (`gl-replay/src/recorder/impl_gl.rs`): if a
pixel-unpack buffer is bound, record the argument verbatim as an offset;
otherwise treat it as an address and capture
`calculate_length(actual_width, height, depth, format, ty)` bytes, where
`actual_width` is the unpack-row-length override when it is non-zero (the
source asserts `width <= unpack_row_length` in that case; `none` models the
assertion failure). -/
def tex_image_data_to_call (bound_buffer unpack_row_length width height depth
    format ty offset : Nat) : Option TexImageData :=
  if bound_buffer ≠ 0 then some (.Offset offset)
  else if unpack_row_length ≠ 0 then
    if width ≤ unpack_row_length then
      some (.Buf offset (calculate_length unpack_row_length height depth format ty))
    else none
  else some (.Buf offset (calculate_length width height depth format ty))

/-! ### The dump-commands tool (`src/bin/dump-commands.rs`) -/

/-- One line of dump-commands output: an error line on standard error, or a
printed call record. -/
inductive DumpLine where
  | badMagic
  | badCallSize
  | callRecord (bytes : List Nat)
deriving DecidableEq

/-- The raw bytes of the magic `b"GLRR"` that `main` compares the header's
first four bytes against. -/
def glrr_magic_bytes : List Nat := [0x47, 0x4C, 0x52, 0x52]

/-- The record-printing loop of dump-commands `main`: read
`size_of::<Call>()`-byte records until end of file; a trailing partial
record ends the loop (its `read_exact` fails with `UnexpectedEof`, which is
caught and breaks).  The first `Nat` is fuel; the list's length is always
enough. -/
def full_chunks (k : Nat) : Nat → List Nat → List (List Nat)
  | 0, _ => []
  | _, [] => []
  | fuel + 1, l => if k ≤ l.length then l.take k :: full_chunks k fuel (l.drop k) else []

/-- Processing of one directory argument by dump-commands `main`
(`src/bin/dump-commands.rs` lines 25-61): `.error ()` models an I/O error
escaping through `?` (a failed `File::open`, or a header `read_exact` on a
too-short file), which returns from `main`; bad magic and `Call`-size
mismatch print a message and `continue`. -/
def dump_one_dir (size_of_call : Nat) (contents : Option (List Nat)) :
    Except Unit (List DumpLine) :=
  match contents with
  | none => .error ()
  | some bytes =>
    if bytes.length < 8 then .error ()
    else if bytes.take 4 ≠ glrr_magic_bytes then .ok [.badMagic]
    else if bytes.getD 4 0 ≠ size_of_call then .ok [.badCallSize]
    else
      let rest := bytes.drop 8
      .ok ((full_chunks size_of_call rest.length rest).map DumpLine.callRecord)

/-- dump-commands `main` over its directory arguments: process each in
order, accumulating output; an `Err` from one directory's processing
returns from `main` immediately, skipping the remaining arguments. -/
def dump_main (size_of_call : Nat) : List (Option (List Nat)) → List DumpLine × Except Unit Unit
  | [] => ([], .ok ())
  | d :: rest =>
    match dump_one_dir size_of_call d with
    | .error e => ([], .error e)
    | .ok lines =>
      let r := dump_main size_of_call rest
      (lines ++ r.1, r.2)

/-! ## Theorems

First the supporting lemmas, then one theorem per verified property. -/

/-! ### ULEB128 lemmas -/

theorem leb_write_aux_congr (n : Nat) : ∀ fuel₁ fuel₂, n ≤ fuel₁ → n ≤ fuel₂ →
    leb_write_aux fuel₁ n = leb_write_aux fuel₂ n := by
  induction n using Nat.strong_induction_on with
  | _ n ih =>
    intro f1 f2 h1 h2
    match f1, f2 with
    | 0, 0 => rfl
    | 0, g + 1 =>
      have hn : n = 0 := Nat.le_zero.mp h1
      subst hn
      simp [leb_write_aux]
    | g + 1, 0 =>
      have hn : n = 0 := Nat.le_zero.mp h2
      subst hn
      simp [leb_write_aux]
    | g1 + 1, g2 + 1 =>
      by_cases h : n < 128
      · simp [leb_write_aux, h]
      · simp only [leb_write_aux, if_neg h]
        rw [ih (n / 128) (by omega) g1 g2 (by omega) (by omega)]

theorem leb_write_aux_eq (fuel n : Nat) (h : n ≤ fuel) :
    leb_write_aux fuel n = leb_write n :=
  leb_write_aux_congr n fuel n h le_rfl

theorem leb_write_aux_ne_nil (fuel n : Nat) : leb_write_aux fuel n ≠ [] := by
  cases fuel with
  | zero => simp [leb_write_aux]
  | succ f =>
    simp only [leb_write_aux]
    split <;> simp

theorem leb_write_ne_nil (n : Nat) : leb_write n ≠ [] := leb_write_aux_ne_nil n n

theorem leb_read_aux_write : ∀ fuel n, n ≤ fuel → ∀ shift acc rest,
    leb_read_aux (leb_write_aux fuel n ++ rest) shift acc = .ok (acc + n * 2 ^ shift, rest) := by
  intro fuel
  induction fuel with
  | zero =>
    intro n hn shift acc rest
    have hn0 : n = 0 := Nat.le_zero.mp hn
    subst hn0
    simp [leb_write_aux, leb_read_aux]
  | succ f ih =>
    intro n hn shift acc rest
    by_cases h : n < 128
    · simp [leb_write_aux, h, leb_read_aux]
    · simp only [leb_write_aux, if_neg h, List.cons_append, leb_read_aux]
      rw [if_neg (by omega)]
      rw [ih (n / 128) (by omega) (shift + 7) (acc + (n % 128 + 128) % 128 * 2 ^ shift) rest]
      have h1 : (n % 128 + 128) % 128 = n % 128 := by omega
      have h2 : n % 128 + 128 * (n / 128) = n := Nat.mod_add_div n 128
      rw [h1, pow_add]
      congr 2
      calc acc + n % 128 * 2 ^ shift + n / 128 * (2 ^ shift * 2 ^ 7)
          = acc + (n % 128 + 128 * (n / 128)) * 2 ^ shift := by ring
        _ = acc + n * 2 ^ shift := by rw [h2]

theorem leb_read_write (n : Nat) (rest : List Nat) :
    leb_read (leb_write n ++ rest) = .ok (n, rest) := by
  have h := leb_read_aux_write n n le_rfl 0 0 rest
  simpa [leb_read, leb_write] using h

theorem leb_read_aux_consumes : ∀ (buf : List Nat) shift acc n rest,
    leb_read_aux buf shift acc = .ok (n, rest) → rest.length < buf.length := by
  intro buf
  induction buf with
  | nil => intro shift acc n rest h; simp [leb_read_aux] at h
  | cons b bs ih =>
    intro shift acc n rest h
    simp only [leb_read_aux] at h
    by_cases hb : b < 128
    · rw [if_pos hb] at h
      simp only [Except.ok.injEq, Prod.mk.injEq] at h
      obtain ⟨-, h2⟩ := h
      subst h2
      simp
    · rw [if_neg hb] at h
      have := ih _ _ _ _ h
      simp only [List.length_cons]
      omega

theorem leb_read_consumes (buf : List Nat) (n : Nat) (rest : List Nat)
    (h : leb_read buf = .ok (n, rest)) : rest.length < buf.length :=
  leb_read_aux_consumes buf 0 0 n rest h

/-! ### Fuel irrelevance for the decoder loop -/

theorem read_general_aux_nil (rc : List Nat → Except DeserializeError (Nat × List Nat))
    (f : Nat) : read_general_aux rc f [] = .ok [] := by
  cases f <;> rfl

theorem read_general_aux_succ (rc : List Nat → Except DeserializeError (Nat × List Nat))
    (f : Nat) (l : List Nat) (h : l ≠ []) :
    read_general_aux rc (f + 1) l = read_general_step (read_general_aux rc f) rc l := by
  obtain ⟨b, bs, rfl⟩ := List.exists_cons_of_ne_nil h
  rfl

theorem read_general_aux_fuel (rc : List Nat → Except DeserializeError (Nat × List Nat))
    (hcons : ∀ buf n rest, rc buf = .ok (n, rest) → rest.length < buf.length) :
    ∀ N buf, buf.length ≤ N → ∀ f1 f2, buf.length < f1 → buf.length < f2 →
      read_general_aux rc f1 buf = read_general_aux rc f2 buf := by
  intro N
  induction N with
  | zero =>
    intro buf hb f1 f2 _ _
    have hnil : buf = [] := List.length_eq_zero.mp (Nat.le_zero.mp hb)
    subst hnil
    rw [read_general_aux_nil, read_general_aux_nil]
  | succ N ih =>
    intro buf hb f1 f2 h1 h2
    cases buf with
    | nil => rw [read_general_aux_nil, read_general_aux_nil]
    | cons b bs =>
      obtain ⟨g1, rfl⟩ : ∃ k, f1 = k + 1 := ⟨f1 - 1, by omega⟩
      obtain ⟨g2, rfl⟩ : ∃ k, f2 = k + 1 := ⟨f2 - 1, by omega⟩
      rw [read_general_aux_succ rc g1 _ (by simp), read_general_aux_succ rc g2 _ (by simp)]
      unfold read_general_step
      cases hrc : rc (b :: bs) with
      | error e => rfl
      | ok p =>
        obtain ⟨count, buf1⟩ := p
        cases buf1 with
        | nil => rfl
        | cons v buf2 =>
          cases buf2 with
          | nil => rfl
          | cons w buf3' =>
            dsimp only
            cases hrc2 : rc (w :: buf3') with
            | error e => rfl
            | ok q =>
              obtain ⟨count2, buf3⟩ := q
              dsimp only
              have e1 := hcons _ _ _ hrc
              have e2 := hcons _ _ _ hrc2
              simp only [List.length_cons] at e1 e2 hb h1 h2
              by_cases hle : count2 ≤ buf3.length
              · simp only [if_pos hle]
                rw [ih (buf3.drop count2) (by simp only [List.length_drop]; omega)
                  g1 g2 (by simp only [List.length_drop]; omega)
                  (by simp only [List.length_drop]; omega)]
              · simp only [if_neg hle]

theorem read_general_aux_eq (rc : List Nat → Except DeserializeError (Nat × List Nat))
    (hcons : ∀ buf n rest, rc buf = .ok (n, rest) → rest.length < buf.length)
    (buf : List Nat) (f : Nat) (h : buf.length < f) :
    read_general_aux rc f buf = read_general rc buf :=
  read_general_aux_fuel rc hcons buf.length buf le_rfl f (buf.length + 1) h (by omega)

/-! ### Fuel irrelevance for the encoder loop -/

theorem scan_literal_lit_ge : ∀ (rest : List Nat) (lead run lit : Nat),
    lit ≤ (scan_literal lead run lit rest).lit := by
  intro rest
  induction rest with
  | nil => intro lead run lit; simp [scan_literal]
  | cons e t ih =>
    intro lead run lit
    simp only [scan_literal]
    by_cases he : e = lead
    · rw [if_pos he]
      by_cases hr : run + 1 ≥ 4
      · rw [if_pos hr]
        exact Nat.le_succ lit
      · rw [if_neg hr]
        exact le_trans (by omega) (ih lead (run + 1) (lit + 1))
    · rw [if_neg he]
      exact le_trans (by omega) (ih e 1 (lit + 1))

theorem rle_loop_aux_fuel (wc : Nat → List Nat) : ∀ N data, data.length ≤ N →
    ∀ lead run f1 f2, data.length < f1 → data.length < f2 →
      rle_loop_aux wc f1 lead run data = rle_loop_aux wc f2 lead run data := by
  intro N
  induction N with
  | zero =>
    intro data hd lead run f1 f2 h1 h2
    have hnil : data = [] := List.length_eq_zero.mp (Nat.le_zero.mp hd)
    subst hnil
    obtain ⟨g1, rfl⟩ : ∃ k, f1 = k + 1 := ⟨f1 - 1, by omega⟩
    obtain ⟨g2, rfl⟩ : ∃ k, f2 = k + 1 := ⟨f2 - 1, by omega⟩
    rfl
  | succ N ih =>
    intro data hd lead run f1 f2 h1 h2
    obtain ⟨g1, rfl⟩ : ∃ k, f1 = k + 1 := ⟨f1 - 1, by omega⟩
    obtain ⟨g2, rfl⟩ : ∃ k, f2 = k + 1 := ⟨f2 - 1, by omega⟩
    show rle_loop_body (rle_loop_aux wc g1) wc lead run data =
      rle_loop_body (rle_loop_aux wc g2) wc lead run data
    unfold rle_loop_body
    cases hrest : data.drop (count_leading lead data) with
    | nil => rfl
    | cons h t =>
      dsimp only
      by_cases hrun : (scan_literal h 1 1 t).run < 4
      · simp only [if_pos hrun]
      · simp only [if_neg hrun]
        have hlit : 1 ≤ (scan_literal h 1 1 t).lit := scan_literal_lit_ge t h 1 1
        have hlen : t.length + 1 = data.length - count_leading lead data := by
          have := congrArg List.length hrest
          simp only [List.length_drop, List.length_cons] at this
          omega
        rw [ih ((h :: t).drop (scan_literal h 1 1 t).lit)
          (by simp only [List.length_drop, List.length_cons]; omega)
          _ _ g1 g2 (by simp only [List.length_drop, List.length_cons]; omega)
          (by simp only [List.length_drop, List.length_cons]; omega)]

theorem rle_loop_aux_eq (wc : Nat → List Nat) (lead run : Nat) (data : List Nat)
    (f : Nat) (h : data.length < f) :
    rle_loop_aux wc f lead run data = rle_loop_aux wc (data.length + 1) lead run data :=
  rle_loop_aux_fuel wc data.length data le_rfl lead run f (data.length + 1) h (by omega)

/-! ### Structure of the encoder's scans -/

theorem count_leading_le (v : Nat) : ∀ l : List Nat, count_leading v l ≤ l.length := by
  intro l
  induction l with
  | nil => simp [count_leading]
  | cons x xs ih =>
    simp only [count_leading, List.length_cons]
    split
    · omega
    · omega

theorem take_count_leading (v : Nat) : ∀ l : List Nat,
    l.take (count_leading v l) = List.replicate (count_leading v l) v := by
  intro l
  induction l with
  | nil => simp [count_leading]
  | cons x xs ih =>
    simp only [count_leading]
    by_cases h : x = v
    · rw [if_pos h]
      simp only [List.take_succ_cons, List.replicate_succ, ih, h]
    · rw [if_neg h]
      simp

theorem count_leading_decomp (v : Nat) (l : List Nat) :
    l = List.replicate (count_leading v l) v ++ l.drop (count_leading v l) := by
  conv_lhs => rw [← List.take_append_drop (count_leading v l) l]
  rw [take_count_leading]

/-- Invariant of the literal scan: `scanned` is the portion already walked
(so the literal length counter equals its length), and its last `run`
elements are `run` copies of `lead`.  The scan's result decomposes
`scanned ++ rest` at the returned literal/streak boundary. -/
theorem scan_literal_spec : ∀ (rest scanned : List Nat) (lead run : Nat),
    1 ≤ run → run ≤ scanned.length →
    scanned.drop (scanned.length - run) = List.replicate run lead →
    (scan_literal lead run scanned.length rest).lit ≤ scanned.length + rest.length ∧
    1 ≤ (scan_literal lead run scanned.length rest).run ∧
    (scan_literal lead run scanned.length rest).run ≤
      (scan_literal lead run scanned.length rest).lit ∧
    (scanned ++ rest).drop
        ((scan_literal lead run scanned.length rest).lit -
          (scan_literal lead run scanned.length rest).run) =
      List.replicate (scan_literal lead run scanned.length rest).run
          (scan_literal lead run scanned.length rest).lead ++
        (scanned ++ rest).drop (scan_literal lead run scanned.length rest).lit ∧
    ((scan_literal lead run scanned.length rest).run < 4 →
      (scan_literal lead run scanned.length rest).lit =
        scanned.length + rest.length) := by
  intro rest
  induction rest with
  | nil =>
    intro scanned lead run h1 h2 h3
    simp only [scan_literal, List.append_nil, List.length_nil, Nat.add_zero]
    refine ⟨le_rfl, h1, h2, ?_, ?_⟩
    · rw [h3, List.drop_length]
      simp
    · simp
  | cons e rest' ih =>
    intro scanned lead run h1 h2 h3
    simp only [scan_literal]
    by_cases he : e = lead
    · rw [if_pos he]
      by_cases hr : run + 1 ≥ 4
      · rw [if_pos hr]
        subst he
        simp only [List.length_cons]
        have key : (scanned ++ e :: rest').drop (scanned.length - run) =
            List.replicate (run + 1) e ++ rest' := by
          rw [List.drop_append_of_le_length (by omega), h3,
            List.replicate_succ' run e, List.append_assoc]
          rfl
        refine ⟨by omega, by omega, by omega, ?_, by omega⟩
        have hlit : scanned.length + 1 - (run + 1) = scanned.length - run := by omega
        rw [hlit, key]
        have hdrop : (scanned ++ e :: rest').drop (scanned.length + 1) = rest' := by
          have : scanned.length + 1 = (scanned ++ [e]).length := by simp
          rw [this, show scanned ++ e :: rest' = (scanned ++ [e]) ++ rest' by simp,
            List.drop_left]
        rw [hdrop]
      · rw [if_neg hr]
        have hlen : scanned.length + 1 = (scanned ++ [e]).length := by simp
        subst he
        have hinv : (scanned ++ [e]).drop ((scanned ++ [e]).length - (run + 1)) =
            List.replicate (run + 1) e := by
          simp only [List.length_append, List.length_singleton]
          have : scanned.length + 1 - (run + 1) = scanned.length - run := by omega
          rw [this, List.drop_append_of_le_length (by omega), h3,
            List.replicate_succ' run e]
        have := ih (scanned ++ [e]) e (run + 1) (by omega) (by simp; omega) hinv
        rw [hlen]
        simpa [List.append_assoc, Nat.add_assoc, Nat.add_comm, Nat.add_left_comm] using this
    · rw [if_neg he]
      have hlen : scanned.length + 1 = (scanned ++ [e]).length := by simp
      have hinv : (scanned ++ [e]).drop ((scanned ++ [e]).length - 1) =
          List.replicate 1 e := by
        simp only [List.length_append, List.length_singleton, Nat.add_sub_cancel]
        rw [List.drop_left]
        rfl
      have := ih (scanned ++ [e]) e 1 le_rfl (by simp) hinv
      rw [hlen]
      simpa [List.append_assoc, Nat.add_assoc, Nat.add_comm, Nat.add_left_comm] using this

/-! ### The run-length round trip -/

theorem read_general_nil (rc : List Nat → Except DeserializeError (Nat × List Nat)) :
    read_general rc [] = .ok [] := rfl

/-- One unfolding of the decoder loop, with the recursive occurrence already
at its canonical fuel (legitimate because a successful count read strictly
shrinks the buffer). -/
theorem read_general_unfold (rc : List Nat → Except DeserializeError (Nat × List Nat))
    (hcons : ∀ buf n rest, rc buf = .ok (n, rest) → rest.length < buf.length)
    (l : List Nat) (hne : l ≠ []) :
    read_general rc l = read_general_step (read_general rc) rc l := by
  obtain ⟨b, bs, rfl⟩ := List.exists_cons_of_ne_nil hne
  rw [read_general, read_general_aux_succ rc _ _ (by simp)]
  unfold read_general_step
  cases hrc : rc (b :: bs) with
  | error e => rfl
  | ok p =>
    obtain ⟨count, buf1⟩ := p
    cases buf1 with
    | nil => rfl
    | cons v buf2 =>
      cases buf2 with
      | nil => rfl
      | cons w buf3' =>
        dsimp only
        cases hrc2 : rc (w :: buf3') with
        | error e => rfl
        | ok q =>
          obtain ⟨count2, buf3⟩ := q
          dsimp only
          by_cases hle : count2 ≤ buf3.length
          · simp only [if_pos hle]
            have e1 := hcons _ _ _ hrc
            have e2 := hcons _ _ _ hrc2
            rw [read_general_aux_eq rc hcons (buf3.drop count2) _
              (by simp only [List.length_drop, List.length_cons] at *; omega)]
          · simp only [if_neg hle]

/-- Decoding a stream that contains exactly one run. -/
theorem read_general_single_run (rc : List Nat → Except DeserializeError (Nat × List Nat))
    (wc : Nat → List Nat)
    (hcons : ∀ buf n rest, rc buf = .ok (n, rest) → rest.length < buf.length)
    (n v : Nat) (hwcn : wc n ≠ [])
    (hrcn : rc (wc n ++ [v]) = .ok (n, [v])) :
    read_general rc (wc n ++ [v]) = .ok (List.replicate n v) := by
  rw [read_general_unfold rc hcons _ (by simp [hwcn])]
  unfold read_general_step
  rw [hrcn]

/-- Decoding the encoder loop's output recovers the pending run followed by
the remaining input.  `B` bounds the counts for which `rc` inverts `wc`. -/
theorem read_write_loop (wc : Nat → List Nat)
    (rc : List Nat → Except DeserializeError (Nat × List Nat)) (B : Nat)
    (hwc : ∀ n, wc n ≠ [])
    (hrc : ∀ n rest, n ≤ B → rc (wc n ++ rest) = .ok (n, rest))
    (hcons : ∀ buf n rest, rc buf = .ok (n, rest) → rest.length < buf.length) :
    ∀ N data, data.length ≤ N → ∀ lead run, 1 ≤ run → run + data.length ≤ B →
      read_general rc (rle_loop_aux wc (data.length + 1) lead run data) =
        .ok (List.replicate run lead ++ data) := by
  intro N
  induction N with
  | zero =>
    intro data hd lead run hrun hB
    have hnil : data = [] := List.length_eq_zero.mp (Nat.le_zero.mp hd)
    subst hnil
    show read_general rc (rle_loop_body (rle_loop_aux wc 0) wc lead run []) = _
    unfold rle_loop_body
    simp only [count_leading, List.drop_nil, List.append_nil]
    rw [read_general_single_run rc wc hcons (run + 0) lead (hwc _)
      (hrc _ _ (by omega))]
    simp
  | succ N ih =>
    intro data hd lead run hrun hB
    have hextle := count_leading_le lead data
    show read_general rc (rle_loop_body (rle_loop_aux wc data.length) wc lead run data) = _
    unfold rle_loop_body
    cases hrest : data.drop (count_leading lead data) with
    | nil =>
      have hdata : data = List.replicate (count_leading lead data) lead := by
        conv_lhs => rw [count_leading_decomp lead data]
        rw [hrest, List.append_nil]
      dsimp only
      rw [List.append_nil]
      rw [read_general_single_run rc wc hcons _ lead (hwc _) (hrc _ _ (by omega))]
      rw [List.replicate_add, ← hdata]
    | cons h t =>
      have hdecomp : data = List.replicate (count_leading lead data) lead ++ (h :: t) := by
        conv_lhs => rw [count_leading_decomp lead data]
        rw [hrest]
      have hlens : data.length = count_leading lead data + (t.length + 1) := by
        have := congrArg List.length hdecomp
        simpa using this
      obtain ⟨hlit_le, hrun1, hrun_le, hdrop, hexh⟩ :=
        scan_literal_spec t [h] h 1 le_rfl (by simp) (by simp)
      simp only [List.singleton_append, List.length_singleton] at hlit_le hrun1 hrun_le hdrop hexh
      dsimp only
      by_cases hs : (scan_literal h 1 1 t).run < 4
      · simp only [if_pos hs]
        have hlit_eq : (scan_literal h 1 1 t).lit = t.length + 1 := by
          have := hexh hs
          omega
        rw [read_general_unfold rc hcons _ (by simp [hwc])]
        unfold read_general_step
        rw [List.append_assoc, hrc _ _ (by omega)]
        simp only [List.singleton_append]
        obtain ⟨c, cs, hcc⟩ := List.exists_cons_of_ne_nil (hwc (scan_literal h 1 1 t).lit)
        rw [hcc]
        simp only [List.cons_append]
        rw [← List.cons_append, ← hcc, hrc _ _ (by omega)]
        dsimp only
        rw [if_pos (by simp [hlit_eq])]
        rw [show (h :: t).drop (scan_literal h 1 1 t).lit = [] from by
          rw [hlit_eq]
          simp]
        rw [read_general_nil]
        dsimp only
        rw [show (h :: t).take (scan_literal h 1 1 t).lit = h :: t from by
          rw [hlit_eq]
          simp]
        rw [List.append_nil, List.replicate_add, List.append_assoc]
        conv_rhs => rw [hdecomp]
      · simp only [if_neg hs]
        have hlit1 : 1 ≤ (scan_literal h 1 1 t).lit := scan_literal_lit_ge t h 1 1
        rw [rle_loop_aux_eq wc _ _ _ data.length
          (by simp only [List.length_drop, List.length_cons]; omega)]
        rw [read_general_unfold rc hcons _ (by simp [hwc])]
        unfold read_general_step
        rw [List.append_assoc, hrc _ _ (by omega)]
        simp only [List.singleton_append]
        obtain ⟨c, cs, hcc⟩ :=
          List.exists_cons_of_ne_nil (hwc ((scan_literal h 1 1 t).lit - (scan_literal h 1 1 t).run))
        rw [hcc]
        simp only [List.cons_append]
        rw [List.append_assoc cs, ← List.cons_append, ← hcc, hrc _ _ (by omega)]
        dsimp only
        generalize hg : (h :: t).take ((scan_literal h 1 1 t).lit - (scan_literal h 1 1 t).run) = tk
        have htklen : tk.length = (scan_literal h 1 1 t).lit - (scan_literal h 1 1 t).run := by
          rw [← hg]
          simp only [List.length_take, List.length_cons]
          omega
        rw [if_pos (by simp only [List.length_append]; omega)]
        rw [← htklen, List.take_left, List.drop_left]
        rw [ih ((h :: t).drop (scan_literal h 1 1 t).lit)
          (by simp only [List.length_drop, List.length_cons]; omega)
          (scan_literal h 1 1 t).lead (scan_literal h 1 1 t).run (by omega)
          (by simp only [List.length_drop, List.length_cons]; omega)]
        dsimp only
        have htail : tk ++ (List.replicate (scan_literal h 1 1 t).run (scan_literal h 1 1 t).lead ++
            (h :: t).drop (scan_literal h 1 1 t).lit) = h :: t := by
          rw [← hdrop, ← hg, List.take_append_drop]
        rw [List.replicate_add]
        conv_rhs => rw [hdecomp]
        simp only [List.append_assoc, htail]

theorem read_write_general (wc : Nat → List Nat)
    (rc : List Nat → Except DeserializeError (Nat × List Nat)) (B : Nat)
    (hwc : ∀ n, wc n ≠ [])
    (hrc : ∀ n rest, n ≤ B → rc (wc n ++ rest) = .ok (n, rest))
    (hcons : ∀ buf n rest, rc buf = .ok (n, rest) → rest.length < buf.length)
    (data : List Nat) (hB : data.length ≤ B) :
    read_general rc (write_general wc data) = .ok data := by
  cases data with
  | nil => exact read_general_nil rc
  | cons h t =>
    show read_general rc (rle_loop_aux wc (t.length + 1) h 1 t) = _
    have := read_write_loop wc rc B hwc hrc hcons t.length t le_rfl h 1 le_rfl
      (by simp only [List.length_cons] at hB; omega)
    simpa using this

theorem read_u8_write_u8 (d : List Nat) : read_u8 (write_u8 d) = .ok d :=
  read_write_general leb_write leb_read d.length leb_write_ne_nil
    (fun n rest _ => leb_read_write n rest)
    (fun buf n rest hb => leb_read_consumes buf n rest hb)
    d le_rfl

theorem read_count_u32_consumes (buf : List Nat) (n : Nat) (rest : List Nat)
    (h : read_count_u32 buf = .ok (n, rest)) : rest.length < buf.length := by
  cases buf with
  | nil => simp [read_count_u32] at h
  | cons w ws =>
    simp only [read_count_u32, Except.ok.injEq, Prod.mk.injEq] at h
    obtain ⟨-, rfl⟩ := h
    simp

theorem read_u32_write_u32 (d : List Nat) (hlen : d.length < 2 ^ 32) :
    read_u32 (write_u32 d) = .ok d := by
  apply read_write_general write_count_u32 read_count_u32 (2 ^ 32 - 1)
    (fun n => by simp [write_count_u32])
    (fun n rest hn => by
      simp only [write_count_u32, List.cons_append, List.nil_append, read_count_u32]
      have : n % 2 ^ 32 = n := Nat.mod_eq_of_lt (by omega)
      rw [this])
    read_count_u32_consumes
  omega

/-! ### Words and bytes -/

theorem words_to_bytes_cons (w : Nat) (ws : List Nat) :
    words_to_bytes (w :: ws) = u32_le_bytes w ++ words_to_bytes ws := rfl

theorem words_to_bytes_length (ws : List Nat) :
    (words_to_bytes ws).length = 4 * ws.length := by
  induction ws with
  | nil => rfl
  | cons w ws ih =>
    rw [words_to_bytes_cons]
    simp only [List.length_append, List.length_cons, ih, u32_le_bytes, List.length_cons,
      List.length_nil]
    omega

theorem bytes_to_words_length : ∀ (n : Nat) (bs : List Nat), bs.length ≤ n →
    (bytes_to_words bs).length = bs.length / 4 := by
  intro n
  induction n with
  | zero =>
    intro bs hb
    have : bs = [] := List.length_eq_zero.mp (Nat.le_zero.mp hb)
    subst this
    rfl
  | succ n ih =>
    intro bs hb
    match bs with
    | [] => rfl
    | [a] => simp [bytes_to_words]
    | [a, b] => simp [bytes_to_words]
    | [a, b, c] => simp [bytes_to_words]
    | a :: b :: c :: d :: rest =>
      show ((a + 2 ^ 8 * b + 2 ^ 16 * c + 2 ^ 24 * d) :: bytes_to_words rest).length = _
      simp only [List.length_cons] at hb ⊢
      rw [ih rest (by omega)]
      omega

theorem bytes_to_words_words_to_bytes (ws : List Nat) (h : ∀ w ∈ ws, w < 2 ^ 32) :
    bytes_to_words (words_to_bytes ws) = ws := by
  induction ws with
  | nil => rfl
  | cons w ws ih =>
    rw [words_to_bytes_cons]
    show bytes_to_words ([w % 2 ^ 8, w / 2 ^ 8 % 2 ^ 8, w / 2 ^ 16 % 2 ^ 8,
      w / 2 ^ 24 % 2 ^ 8] ++ words_to_bytes ws) = w :: ws
    show (w % 2 ^ 8 + 2 ^ 8 * (w / 2 ^ 8 % 2 ^ 8) + 2 ^ 16 * (w / 2 ^ 16 % 2 ^ 8) +
      2 ^ 24 * (w / 2 ^ 24 % 2 ^ 8)) :: bytes_to_words (words_to_bytes ws) = w :: ws
    rw [ih (fun x hx => h x (List.mem_cons_of_mem w hx))]
    have hw : w < 2 ^ 32 := h w (List.mem_cons_self w ws)
    congr 1
    omega

theorem words_to_bytes_bytes_to_words : ∀ (n : Nat) (bs : List Nat), bs.length ≤ n →
    bs.length % 4 = 0 → (∀ b ∈ bs, b < 256) →
    words_to_bytes (bytes_to_words bs) = bs := by
  intro n
  induction n with
  | zero =>
    intro bs hb _ _
    have : bs = [] := List.length_eq_zero.mp (Nat.le_zero.mp hb)
    subst this
    rfl
  | succ n ih =>
    intro bs hb hmod hlt
    match bs with
    | [] => rfl
    | [a] => simp at hmod
    | [a, b] => simp at hmod
    | [a, b, c] => simp at hmod
    | a :: b :: c :: d :: rest =>
      show words_to_bytes ((a + 2 ^ 8 * b + 2 ^ 16 * c + 2 ^ 24 * d) :: bytes_to_words rest) = _
      rw [words_to_bytes_cons]
      simp only [List.length_cons] at hb hmod
      have ha : a < 256 := hlt a (by simp)
      have hbb : b < 256 := hlt b (by simp)
      have hcb : c < 256 := hlt c (by simp)
      have hdb : d < 256 := hlt d (by simp)
      rw [ih rest (by omega) (by omega) (fun x hx => hlt x (by simp [hx]))]
      show [_ % 2 ^ 8, _ / 2 ^ 8 % 2 ^ 8, _ / 2 ^ 16 % 2 ^ 8, _ / 2 ^ 24 % 2 ^ 8] ++ rest = _
      have e1 : (a + 2 ^ 8 * b + 2 ^ 16 * c + 2 ^ 24 * d) % 2 ^ 8 = a := by omega
      have e2 : (a + 2 ^ 8 * b + 2 ^ 16 * c + 2 ^ 24 * d) / 2 ^ 8 % 2 ^ 8 = b := by omega
      have e3 : (a + 2 ^ 8 * b + 2 ^ 16 * c + 2 ^ 24 * d) / 2 ^ 16 % 2 ^ 8 = c := by omega
      have e4 : (a + 2 ^ 8 * b + 2 ^ 16 * c + 2 ^ 24 * d) / 2 ^ 24 % 2 ^ 8 = d := by omega
      rw [e1, e2, e3, e4]
      rfl

theorem bytes_to_words_lt : ∀ (n : Nat) (bs : List Nat), bs.length ≤ n →
    (∀ b ∈ bs, b < 256) → ∀ w ∈ bytes_to_words bs, w < 2 ^ 32 := by
  intro n
  induction n with
  | zero =>
    intro bs hb _
    have : bs = [] := List.length_eq_zero.mp (Nat.le_zero.mp hb)
    subst this
    simp [bytes_to_words]
  | succ n ih =>
    intro bs hb hlt
    match bs with
    | [] => simp [bytes_to_words]
    | [a] => simp [bytes_to_words]
    | [a, b] => simp [bytes_to_words]
    | [a, b, c] => simp [bytes_to_words]
    | a :: b :: c :: d :: rest =>
      intro w hw
      show w < 2 ^ 32
      have := hw
      simp only [bytes_to_words, List.mem_cons] at this
      rcases this with rfl | hmem
      · have ha : a < 256 := hlt a (by simp)
        have hbb : b < 256 := hlt b (by simp)
        have hcb : c < 256 := hlt c (by simp)
        have hdb : d < 256 := hlt d (by simp)
        omega
      · simp only [List.length_cons] at hb
        exact ih rest (by omega) (fun x hx => hlt x (by simp [hx])) w hmem

/-! ### Elements emitted by the encoder -/

theorem scan_literal_lead_mem : ∀ (rest : List Nat) (lead run lit : Nat),
    (scan_literal lead run lit rest).lead = lead ∨ (scan_literal lead run lit rest).lead ∈ rest := by
  intro rest
  induction rest with
  | nil => intro lead run lit; left; rfl
  | cons e t ih =>
    intro lead run lit
    simp only [scan_literal]
    by_cases he : e = lead
    · rw [if_pos he]
      by_cases hr : run + 1 ≥ 4
      · rw [if_pos hr]; left; rfl
      · rw [if_neg hr]
        rcases ih lead (run + 1) (lit + 1) with h | h
        · left; exact h
        · right; exact List.mem_cons_of_mem e h
    · rw [if_neg he]
      rcases ih e 1 (lit + 1) with h | h
      · right; rw [h]; exact List.mem_cons_self e t
      · right; exact List.mem_cons_of_mem e h

theorem rle_loop_aux_all (P : Nat → Prop) (wc : Nat → List Nat)
    (hwc : ∀ n, ∀ x ∈ wc n, P x) :
    ∀ fuel lead run data, P lead → (∀ x ∈ data, P x) →
      ∀ x ∈ rle_loop_aux wc fuel lead run data, P x := by
  intro fuel
  induction fuel with
  | zero => intro lead run data _ _ x hx; simp [rle_loop_aux] at hx
  | succ fuel ih =>
    intro lead run data hlead hdata x hx
    show P x
    simp only [rle_loop_aux] at hx
    unfold rle_loop_body at hx
    simp only [List.mem_append] at hx
    rcases hx with (hx | hx) | hx
    · exact hwc _ x hx
    · simp only [List.mem_singleton] at hx
      subst hx
      exact hlead
    · cases hrest : data.drop (count_leading lead data) with
      | nil => rw [hrest] at hx; simp at hx
      | cons h t =>
        rw [hrest] at hx
        have hsub : ∀ y ∈ h :: t, P y := by
          intro y hy
          exact hdata y (List.mem_of_mem_drop (hrest ▸ hy))
        dsimp only at hx
        by_cases hs : (scan_literal h 1 1 t).run < 4
        · rw [if_pos hs] at hx
          simp only [List.mem_append] at hx
          rcases hx with hx | hx
          · exact hwc _ x hx
          · exact hsub x hx
        · rw [if_neg hs] at hx
          simp only [List.mem_append] at hx
          rcases hx with (hx | hx) | hx
          · exact hwc _ x hx
          · exact hsub x (List.take_subset _ _ hx)
          · refine ih (scan_literal h 1 1 t).lead (scan_literal h 1 1 t).run
              ((h :: t).drop (scan_literal h 1 1 t).lit) ?_ ?_ x hx
            · rcases scan_literal_lead_mem t h 1 1 with hl | hl
              · rw [hl]; exact hsub h (List.mem_cons_self h t)
              · exact hsub _ (List.mem_cons_of_mem h hl)
            · intro y hy
              exact hsub y (List.drop_subset _ _ hy)

theorem write_u32_all_lt (data : List Nat) (hdata : ∀ x ∈ data, x < 2 ^ 32) :
    ∀ x ∈ write_u32 data, x < 2 ^ 32 := by
  cases data with
  | nil => simp [write_u32, write_general]
  | cons h t =>
    show ∀ x ∈ rle_loop_aux write_count_u32 (t.length + 1) h 1 t, x < 2 ^ 32
    refine rle_loop_aux_all (· < 2 ^ 32) write_count_u32 ?_ _ h 1 t
      (hdata h (List.mem_cons_self h t)) (fun y hy => hdata y (List.mem_cons_of_mem h hy))
    intro n x hx
    simp only [write_count_u32, List.mem_singleton] at hx
    subst hx
    exact Nat.mod_lt _ (by norm_num)

/-! ### Alignment padding -/

theorem pad_len_eq (k offset : Nat) (hk : k ≤ 6) :
    pad_len (2 ^ k) offset = (2 ^ k - offset % 2 ^ k) % 2 ^ k := by
  have hand : Nat.land ((2 ^ 64 - offset % 2 ^ 64) % 2 ^ 64) (2 ^ k - 1) =
      ((2 ^ 64 - offset % 2 ^ 64) % 2 ^ 64) % 2 ^ k :=
    Nat.and_pow_two_sub_one_eq_mod _ k
  unfold pad_len
  rw [hand]
  interval_cases k <;> omega

theorem pad_len_four (offset : Nat) : pad_len 4 offset = (4 - offset % 4) % 4 := by
  have h := pad_len_eq 2 offset (by omega)
  norm_num at h
  exact h

theorem align_for_eq (align : Nat) (s : List Nat) :
    align_for align s = s ++ List.replicate (pad_len align s.length) 0x50 := by
  unfold align_for
  by_cases h : pad_len align s.length > 0
  · rw [if_pos h]
  · rw [if_neg h]
    have : pad_len align s.length = 0 := by omega
    rw [this]
    simp

theorem align_for_four_length (s : List Nat) : (align_for 4 s).length % 4 = 0 := by
  rw [align_for_eq, List.length_append, List.length_replicate, pad_len_four]
  omega

/-! ### The pixel-block round trip -/

theorem pixels_serialize_bpp1 (w h d f ty : Nat) (bytes s : List Nat)
    (hb1 : calculate_bytes_per_pixel f ty = 1)
    (hlen : calculate_bytes_per_pixel f ty * w * h * d = bytes.length) :
    pixels_serialize ⟨w, h, d, f, ty, bytes⟩ s =
      some (align_for 4 s ++ leb_write w ++ leb_write h ++ leb_write d ++ leb_write f ++
        leb_write ty ++ leb_write (write_u8 bytes).length ++ write_u8 bytes,
        (align_for 4 s).length) := by
  rw [hb1] at hlen
  unfold pixels_serialize
  dsimp only
  rw [hb1]
  rw [if_neg (by omega)]
  rw [if_pos rfl]
  dsimp only
  simp

theorem pixels_deserialize_bpp1 (w h d f ty : Nat) (bytes : List Nat) (mark : Nat)
    (hb1 : calculate_bytes_per_pixel f ty = 1)
    (hlen : calculate_bytes_per_pixel f ty * w * h * d = bytes.length) :
    pixels_deserialize mark
      (leb_write w ++ (leb_write h ++ (leb_write d ++ (leb_write f ++ (leb_write ty ++
        (leb_write (write_u8 bytes).length ++ write_u8 bytes)))))) =
      some ⟨w, h, d, f, ty, bytes⟩ := by
  rw [hb1] at hlen
  unfold pixels_deserialize
  rw [leb_read_write]
  dsimp only
  rw [leb_read_write]
  dsimp only
  rw [leb_read_write]
  dsimp only
  rw [leb_read_write]
  dsimp only
  rw [leb_read_write]
  dsimp only
  rw [leb_read_write]
  dsimp only
  rw [hb1]
  rw [if_neg (by omega)]
  rw [if_pos rfl]
  rw [read_u8_write_u8]
  dsimp only
  rw [if_neg (by omega)]

theorem pixels_serialize_bpp4 (w h d f ty : Nat) (bytes s : List Nat)
    (hb4 : calculate_bytes_per_pixel f ty = 4)
    (hlen : calculate_bytes_per_pixel f ty * w * h * d = bytes.length) :
    pixels_serialize ⟨w, h, d, f, ty, bytes⟩ s =
      some (align_for 4 (align_for 4 s ++ leb_write w ++ leb_write h ++ leb_write d ++
          leb_write f ++ leb_write ty ++
          leb_write (words_to_bytes (write_u32 (bytes_to_words bytes))).length) ++
        words_to_bytes (write_u32 (bytes_to_words bytes)),
        (align_for 4 s).length) := by
  rw [hb4] at hlen
  have hmod4 : bytes.length % 4 = 0 := by
    rw [← hlen, Nat.mul_assoc, Nat.mul_assoc]
    exact Nat.mul_mod_right 4 _
  unfold pixels_serialize
  dsimp only
  rw [hb4]
  rw [if_neg (by omega)]
  rw [if_neg (by norm_num)]
  rw [if_pos rfl]
  rw [if_pos hmod4]
  dsimp only
  simp

theorem pixels_deserialize_bpp4 (w h d f ty : Nat) (bytes : List Nat) (mark pad : Nat)
    (C : List Nat)
    (hC : C = words_to_bytes (write_u32 (bytes_to_words bytes)))
    (hpad : pad = pad_len 4 (mark + ((leb_write w).length + (leb_write h).length +
      (leb_write d).length + (leb_write f).length + (leb_write ty).length +
      (leb_write C.length).length)))
    (hb4 : calculate_bytes_per_pixel f ty = 4)
    (hlen : calculate_bytes_per_pixel f ty * w * h * d = bytes.length)
    (hbytes : ∀ b ∈ bytes, b < 256)
    (hsz : bytes.length < 2 ^ 32) :
    pixels_deserialize mark
      (leb_write w ++ (leb_write h ++ (leb_write d ++ (leb_write f ++ (leb_write ty ++
        (leb_write C.length ++ (List.replicate pad 0x50 ++ C))))))) =
      some ⟨w, h, d, f, ty, bytes⟩ := by
  rw [hb4] at hlen
  have hmod4 : bytes.length % 4 = 0 := by
    rw [← hlen, Nat.mul_assoc, Nat.mul_assoc]
    exact Nat.mul_mod_right 4 _
  have hwords_lt : ∀ x ∈ bytes_to_words bytes, x < 2 ^ 32 :=
    bytes_to_words_lt bytes.length bytes le_rfl hbytes
  have hwlen : (bytes_to_words bytes).length = bytes.length / 4 :=
    bytes_to_words_length bytes.length bytes le_rfl
  have hCw : bytes_to_words C = write_u32 (bytes_to_words bytes) := by
    rw [hC]
    exact bytes_to_words_words_to_bytes _ (write_u32_all_lt _ hwords_lt)
  have hread : read_u32 (bytes_to_words C) = .ok (bytes_to_words bytes) := by
    rw [hCw]
    exact read_u32_write_u32 _ (by omega)
  have hback : words_to_bytes (bytes_to_words bytes) = bytes :=
    words_to_bytes_bytes_to_words bytes.length bytes le_rfl (by omega) hbytes
  have hClen4 : C.length % 4 = 0 := by
    rw [hC, words_to_bytes_length]
    omega
  unfold pixels_deserialize
  rw [leb_read_write]
  dsimp only
  rw [leb_read_write]
  dsimp only
  rw [leb_read_write]
  dsimp only
  rw [leb_read_write]
  dsimp only
  rw [leb_read_write]
  dsimp only
  rw [leb_read_write]
  dsimp only
  rw [hb4]
  rw [if_neg (by omega)]
  rw [if_neg (by norm_num)]
  rw [if_pos rfl]
  have hconsumed : (leb_write w ++ (leb_write h ++ (leb_write d ++ (leb_write f ++
      (leb_write ty ++ (leb_write C.length ++ (List.replicate pad 0x50 ++ C))))))).length -
      (List.replicate pad 0x50 ++ C).length =
      (leb_write w).length + (leb_write h).length + (leb_write d).length +
        (leb_write f).length + (leb_write ty).length + (leb_write C.length).length := by
    simp only [List.length_append, List.length_replicate]
    omega
  rw [hconsumed]
  have hskip : pad_len 4 (mark + ((leb_write w).length + (leb_write h).length +
      (leb_write d).length + (leb_write f).length + (leb_write ty).length +
      (leb_write C.length).length)) = pad := hpad.symm
  rw [show mark + ((leb_write w).length + (leb_write h).length + (leb_write d).length +
      (leb_write f).length + (leb_write ty).length + (leb_write C.length).length) =
      mark + ((leb_write w).length + (leb_write h).length + (leb_write d).length +
      (leb_write f).length + (leb_write ty).length + (leb_write C.length).length) from rfl]
  rw [hskip]
  rw [if_neg (by
    simp only [List.length_append, List.length_replicate]
    omega)]
  rw [List.drop_append_of_le_length (by simp), List.drop_replicate]
  simp only [Nat.sub_self, List.replicate_zero, List.nil_append]
  rw [show 4 * (C.length / 4) = C.length from by omega, List.take_length]
  rw [hread]
  dsimp only
  rw [hback]
  rw [if_neg (by omega)]

/-- C7: Pixel-block round trip — for every `Pixels` value whose
format/pixel-type pair has 1 or 4 bytes per pixel and whose byte length
equals bytes-per-pixel × width × height × depth, deserializing
(`PixelsForm::deserialize`) the serialized form (`Pixels::serialize`)
reproduces width, height, depth, format, pixel type, and the exact original
bytes; concretely, a 2×2×1 one-byte-per-pixel block `[10,10,10,10]`
compresses to the single run (count 4, value 10) and decodes back
identically. -/
theorem pixels_roundtrip (p : Pixels) (s : List Nat)
    (hbpp : calculate_bytes_per_pixel p.format p.pixel_type = 1 ∨
      calculate_bytes_per_pixel p.format p.pixel_type = 4)
    (hlen : calculate_bytes_per_pixel p.format p.pixel_type * p.width * p.height * p.depth =
      p.bytes.length)
    (hbytes : ∀ b ∈ p.bytes, b < 256)
    (hsz : p.bytes.length < 2 ^ 32) :
    (∃ out mark, pixels_serialize p s = some (out, mark) ∧
      pixels_deserialize mark (out.drop mark) = some p) ∧
    write_u8 [10, 10, 10, 10] = [4, 10] ∧
    pixels_deserialize 0
      ((pixels_serialize ⟨2, 2, 1, 0x1903, 0x1401, [10, 10, 10, 10]⟩ []).elim [] Prod.fst) =
      some ⟨2, 2, 1, 0x1903, 0x1401, [10, 10, 10, 10]⟩ := by
  refine ⟨?_, by rfl, by rfl⟩
  obtain ⟨w, h, d, f, ty, bytes⟩ := p
  dsimp only at hbpp hlen hbytes hsz
  rcases hbpp with hb1 | hb4
  · refine ⟨_, _, pixels_serialize_bpp1 w h d f ty bytes s hb1 hlen, ?_⟩
    have hdrop : (align_for 4 s ++ leb_write w ++ leb_write h ++ leb_write d ++
        leb_write f ++ leb_write ty ++ leb_write (write_u8 bytes).length ++
        write_u8 bytes).drop (align_for 4 s).length =
        leb_write w ++ (leb_write h ++ (leb_write d ++ (leb_write f ++ (leb_write ty ++
          (leb_write (write_u8 bytes).length ++ write_u8 bytes))))) := by
      simp only [List.append_assoc]
      rw [List.drop_left]
    rw [hdrop]
    exact pixels_deserialize_bpp1 w h d f ty bytes _ hb1 hlen
  · refine ⟨_, _, pixels_serialize_bpp4 w h d f ty bytes s hb4 hlen, ?_⟩
    rw [align_for_eq 4 (align_for 4 s ++ leb_write w ++ leb_write h ++ leb_write d ++
      leb_write f ++ leb_write ty ++
      leb_write (words_to_bytes (write_u32 (bytes_to_words bytes))).length)]
    simp only [List.append_assoc]
    rw [List.drop_left]
    apply pixels_deserialize_bpp4 w h d f ty bytes (align_for 4 s).length _ _ rfl ?_
      hb4 hlen hbytes hsz
    congr 1
    simp only [List.length_append]
    omega

theorem pixels_roundtrip_witness :
    (calculate_bytes_per_pixel 0x1903 0x1401 = 1 ∨
      calculate_bytes_per_pixel 0x1903 0x1401 = 4) ∧
    (∃ out mark,
      pixels_serialize ⟨2, 2, 1, 0x1903, 0x1401, [10, 10, 10, 10]⟩ [] = some (out, mark) ∧
      pixels_deserialize mark (out.drop mark) =
        some ⟨2, 2, 1, 0x1903, 0x1401, [10, 10, 10, 10]⟩) :=
  ⟨Or.inl rfl,
   (pixels_roundtrip ⟨2, 2, 1, 0x1903, 0x1401, [10, 10, 10, 10]⟩ []
     (Or.inl rfl) (by decide) (by decide) (by decide)).1⟩

/-! ### Claim theorems -/

/-- C1: Byte-stream run-length round trip — for every byte sequence `d`,
decoding (`read_u8`) the encoding (`write_u8`) of `d` yields exactly `d`,
with no decode error; in particular decoding `[3,1,0,4,2]` yields
`[1,1,1,2,2,2,2]`. -/
theorem rle_u8_roundtrip (d : List Nat) (_hd : ∀ b ∈ d, b < 256) :
    read_u8 (write_u8 d) = .ok d ∧
    read_u8 [3, 1, 0, 4, 2] = .ok [1, 1, 1, 2, 2, 2, 2] :=
  ⟨read_u8_write_u8 d, by rfl⟩

theorem rle_u8_roundtrip_witness :
    (∀ b ∈ [1, 1, 1, 2, 2, 2, 2], b < 256) ∧
    read_u8 (write_u8 [1, 1, 1, 2, 2, 2, 2]) = .ok [1, 1, 1, 2, 2, 2, 2] :=
  ⟨by decide, (rle_u8_roundtrip [1, 1, 1, 2, 2, 2, 2] (by decide)).1⟩

/-- C2: Run-length encoder exact output — `write_u8` emits an empty stream
for empty input, otherwise starts with a run whose count covers the leading
streak, and produces exactly the worked-example outputs of the spec. -/
theorem write_u8_worked_examples :
    write_u8 [] = [] ∧
    (∀ h t : _, ∃ rest, write_u8 (h :: t) = leb_write (1 + count_leading h t) ++ h :: rest) ∧
    write_u8 [1] = [1, 1] ∧
    write_u8 [1, 1] = [2, 1] ∧
    write_u8 [1, 1, 1, 2, 2, 2, 2] = [3, 1, 0, 4, 2] ∧
    write_u8 [1, 2, 3, 4, 5, 6] = [1, 1, 5, 2, 3, 4, 5, 6] ∧
    write_u8 [1, 2, 3, 3, 3] = [1, 1, 4, 2, 3, 3, 3] ∧
    write_u8 [1, 2, 3, 3, 3, 3] = [1, 1, 1, 2, 4, 3] ∧
    write_u8 [1, 2, 3, 3, 3, 3, 3] = [1, 1, 1, 2, 5, 3] ∧
    write_u8 [1, 2, 3, 3, 3, 3, 3, 4, 5] = [1, 1, 1, 2, 5, 3, 2, 4, 5] ∧
    write_u8 [1, 2, 3, 3, 3, 3, 4, 4, 4, 4, 5, 5, 5, 5] =
      [1, 1, 1, 2, 4, 3, 0, 4, 4, 0, 4, 5] := by
  refine ⟨rfl, ?_, rfl, rfl, rfl, rfl, rfl, rfl, rfl, rfl, rfl⟩
  intro h t
  have hbody : write_u8 (h :: t) =
      rle_loop_body (rle_loop_aux leb_write t.length) leb_write h 1 t := rfl
  simp only [hbody]
  unfold rle_loop_body
  simp only [List.append_assoc, List.singleton_append]
  exact ⟨_, rfl⟩

/-- C3: the replay dispatch for `uniform_matrix_2fv` does not re-issue the
recorded method: the arm invokes `uniform_matrix_4fv` on the target
(replay.rs line 689), while the recorder records `uniform_matrix_2fv` for
interceptions of `uniform_matrix_2fv`; the 3fv and 4fv arms dispatch to
their own methods. -/
theorem replay_uniform_matrix_dispatch :
    replayed_method CallVariant.uniform_matrix_2fv = some GlMethod.uniform_matrix_4fv ∧
    recorded_method CallVariant.uniform_matrix_2fv = GlMethod.uniform_matrix_2fv ∧
    replayed_method CallVariant.uniform_matrix_2fv ≠
      some (recorded_method CallVariant.uniform_matrix_2fv) ∧
    replayed_method CallVariant.uniform_matrix_3fv = some GlMethod.uniform_matrix_3fv ∧
    replayed_method CallVariant.uniform_matrix_4fv = some GlMethod.uniform_matrix_4fv := by
  refine ⟨rfl, rfl, ?_, rfl, rfl⟩
  decide

/-- C4: Replay return-value validation — when the actual result equals the
recorded expected result the replay continues silently; otherwise the
method name, serial number and both values are reported and the process
terminates, with the two-sequence dump suppressed when the combined length
of expected and actual reaches 1000. -/
theorem replay_return_value_validation {α : Type} [DecidableEq α]
    (method : GlMethod) (serial : Nat) (expected actual : α)
    (expectedV actualV : List α) :
    (expected = actual → check_return_value method serial expected actual = .silent) ∧
    (expected ≠ actual →
      check_return_value method serial expected actual = .terminated method serial true) ∧
    (expectedV = actualV → check_returned_vector method serial expectedV actualV = .silent) ∧
    (expectedV ≠ actualV →
      check_returned_vector method serial expectedV actualV =
        .terminated method serial (decide (expectedV.length + actualV.length < 1000))) := by
  refine ⟨?_, ?_, ?_, ?_⟩
  · intro h
    simp [check_return_value, h]
  · intro h
    simp [check_return_value, h]
  · intro h
    simp [check_returned_vector, h]
  · intro h
    simp [check_returned_vector, h]

theorem replay_return_value_validation_witness :
    (5 : Nat) = 5 ∧ ([1, 2, 3] : List Nat) ≠ [1, 2, 4] ∧
    check_return_value GlMethod.create_shader 9 (5 : Nat) 5 = .silent ∧
    check_returned_vector GlMethod.gen_buffers 7 ([1, 2, 3] : List Nat) [1, 2, 4] =
      .terminated GlMethod.gen_buffers 7 true := by
  refine ⟨rfl, by decide, ?_, ?_⟩
  · exact (replay_return_value_validation GlMethod.create_shader 9 (5 : Nat) 5 [] []).1 rfl
  · have h := (replay_return_value_validation GlMethod.gen_buffers 7 (0 : Nat) 0
      [1, 2, 3] [1, 2, 4]).2.2.2 (by decide)
    simpa using h

/-- C5: Open-time validation — `FileRecording::open` fails with its
dedicated error when the calls file is zero-length; it succeeds only if
every header field other than the padding byte (magic, size of `usize`,
size of `Call`, max alignment) equals the expected header for the reader's
`Call` type; and the padding byte, copied from the actual header before
comparison, never causes rejection. -/
theorem file_recording_open_validation (magic size_of_call max_alignment : Nat)
    (calls_bytes variable_bytes : List Nat) :
    (calls_bytes.length = 0 →
      file_recording_open magic size_of_call max_alignment calls_bytes variable_bytes =
        .error .zeroLengthCalls) ∧
    (∀ r, file_recording_open magic size_of_call max_alignment calls_bytes variable_bytes =
        .ok r →
      (parse_header (calls_bytes.take 8)).magic = magic ∧
      (parse_header (calls_bytes.take 8)).size_of_usize = 8 ∧
      (parse_header (calls_bytes.take 8)).size_of_call = size_of_call ∧
      (parse_header (calls_bytes.take 8)).max_alignment = max_alignment) ∧
    (∀ pad, 8 % max_alignment = 0 → size_of_call ≤ 255 →
      header_check ⟨magic, 8, size_of_call, max_alignment, pad⟩ magic size_of_call
        max_alignment = some true) := by
  refine ⟨?_, ?_, ?_⟩
  · intro h
    unfold file_recording_open
    rw [if_pos h]
  · intro r hr
    unfold file_recording_open at hr
    by_cases h0 : calls_bytes.length = 0
    · rw [if_pos h0] at hr
      exact absurd hr (by simp)
    rw [if_neg h0] at hr
    by_cases h8 : calls_bytes.length < 8
    · rw [if_pos h8] at hr
      exact absurd hr (by simp)
    rw [if_neg h8] at hr
    dsimp only at hr
    cases hchk : header_check (parse_header (calls_bytes.take 8)) magic size_of_call
        max_alignment with
    | none =>
      rw [hchk] at hr
      exact absurd hr (by simp)
    | some b =>
      rw [hchk] at hr
      cases b with
      | false => exact absurd hr (by simp)
      | true =>
        unfold header_check at hchk
        cases hfc : header_for_call magic size_of_call max_alignment with
        | none =>
          rw [hfc] at hchk
          exact absurd hchk (by simp)
        | some expected =>
          rw [hfc] at hchk
          simp only [Option.some.injEq, decide_eq_true_eq] at hchk
          unfold header_for_call at hfc
          by_cases hguard : 8 % max_alignment = 0 ∧ size_of_call ≤ 255
          · rw [if_pos hguard] at hfc
            simp only [Option.some.injEq] at hfc
            subst hfc
            rw [← hchk]
            exact ⟨rfl, rfl, rfl, rfl⟩
          · rw [if_neg hguard] at hfc
            exact absurd hfc (by simp)
  · intro pad h1 h2
    unfold header_check header_for_call
    rw [if_pos ⟨h1, h2⟩]
    simp

theorem file_recording_open_validation_witness :
    file_recording_open 7 2 1 [] [] = .error .zeroLengthCalls ∧
    (parse_header (([7, 0, 0, 0, 8, 2, 1, 80, 5, 6] : List Nat).take 8)).magic = 7 ∧
    header_check ⟨7, 8, 2, 1, 99⟩ 7 2 1 = some true := by
  refine ⟨(file_recording_open_validation 7 2 1 [] []).1 rfl, ?_, ?_⟩
  · exact ((file_recording_open_validation 7 2 1 [7, 0, 0, 0, 8, 2, 1, 80, 5, 6] []).2.1
      ([[5, 6]], []) (by decide)).1
  · exact (file_recording_open_validation 7 2 1 [] []).2.2 99 (by decide) (by decide)

/-- C6 counterexample: the claim respects the unpack-row-length override
"if set and not exceeding the argument's width"; at binding 0, override 1,
width 2 the override is set and does not exceed the width, so the claim
predicts a `Buf` of the override-substituted length — but the recorder's
assertion `width <= unpack_row_length` fails (the code requires the
opposite inequality), so the call panics instead. -/
theorem tex_image_claim_counterexample :
    tex_image_data_to_call 0 1 2 1 1 0x1903 0x1401 0 = none ∧
    tex_image_data_to_call 0 1 2 1 1 0x1903 0x1401 0 ≠
      some (TexImageData.Buf 0 (calculate_bytes_per_pixel 0x1903 0x1401 * 1 * 1 * 1)) := by
  exact ⟨by decide, by decide⟩

/-- C6 (amended): when the pixel-unpack binding is non-zero the argument is
recorded verbatim as `Offset`; when it is zero, a `Buf` of
bytes-per-pixel × width × height × depth captured bytes is recorded, with
the unpack-row-length override substituted for width when it is set
(non-zero) and the width does not exceed it (`width <= unpack_row_length`,
asserted by the code); if the override is set but smaller than the width,
recording panics. -/
theorem tex_image_data_resolution (bound_buffer unpack_row_length width height depth
    format ty offset : Nat) :
    (bound_buffer ≠ 0 →
      tex_image_data_to_call bound_buffer unpack_row_length width height depth format ty
        offset = some (.Offset offset)) ∧
    (bound_buffer = 0 → unpack_row_length = 0 →
      tex_image_data_to_call bound_buffer unpack_row_length width height depth format ty
        offset = some (.Buf offset
          (calculate_bytes_per_pixel format ty * width * height * depth))) ∧
    (bound_buffer = 0 → unpack_row_length ≠ 0 → width ≤ unpack_row_length →
      tex_image_data_to_call bound_buffer unpack_row_length width height depth format ty
        offset = some (.Buf offset
          (calculate_bytes_per_pixel format ty * unpack_row_length * height * depth))) ∧
    (bound_buffer = 0 → unpack_row_length ≠ 0 → ¬width ≤ unpack_row_length →
      tex_image_data_to_call bound_buffer unpack_row_length width height depth format ty
        offset = none) := by
  refine ⟨?_, ?_, ?_, ?_⟩
  · intro h
    unfold tex_image_data_to_call
    rw [if_pos h]
  · intro h0 hu
    unfold tex_image_data_to_call
    rw [if_neg (by omega), if_neg (by omega)]
    rfl
  · intro h0 hu hw
    unfold tex_image_data_to_call
    rw [if_neg (by omega), if_pos hu, if_pos hw]
    rfl
  · intro h0 hu hw
    unfold tex_image_data_to_call
    rw [if_neg (by omega), if_pos hu, if_neg hw]

theorem tex_image_data_resolution_witness :
    (0 : Nat) = 0 ∧ (5 : Nat) ≠ 0 ∧ (4 : Nat) ≤ 5 ∧
    tex_image_data_to_call 0 5 4 2 3 0x1903 0x1401 77 =
      some (TexImageData.Buf 77 (calculate_bytes_per_pixel 0x1903 0x1401 * 5 * 2 * 3)) :=
  ⟨rfl, by decide, by decide,
    (tex_image_data_resolution 0 5 4 2 3 0x1903 0x1401 77).2.2.1 rfl (by decide) (by decide)⟩

/-- C8: Alignment-padding invariant — an aligned write first emits exactly
`(0 - current_offset) mod align` padding bytes, each `'P'` (0x50), so the
payload's start offset is a multiple of the alignment; the padding never
exceeds the fixed 64-byte padding buffer for the supported power-of-two
alignments (at most 64). -/
theorem align_padding_spec (k : Nat) (hk : k ≤ 6) (s payload : List Nat) :
    align_for (2 ^ k) s = s ++ List.replicate (pad_len (2 ^ k) s.length) 0x50 ∧
    pad_len (2 ^ k) s.length = ((0 - (s.length : Int)) % ((2 ^ k : Nat) : Int)).toNat ∧
    (align_for (2 ^ k) s).length % 2 ^ k = 0 ∧
    (marked_write_all_aligned (2 ^ k) payload s).2 % 2 ^ k = 0 ∧
    pad_len (2 ^ k) s.length ≤ 64 := by
  have hpe := pad_len_eq k s.length hk
  have hlen : (align_for (2 ^ k) s).length % 2 ^ k = 0 := by
    rw [align_for_eq, List.length_append, List.length_replicate, hpe]
    interval_cases k <;> omega
  refine ⟨align_for_eq _ s, ?_, hlen, ?_, ?_⟩
  · rw [hpe]
    interval_cases k <;> omega
  · show (align_for (2 ^ k) s).length % 2 ^ k = 0
    exact hlen
  · rw [hpe]
    interval_cases k <;> omega

theorem align_padding_spec_witness :
    align_for 4 [1, 2, 3] = [1, 2, 3] ++ List.replicate (pad_len 4 3) 0x50 ∧
    (align_for 4 [1, 2, 3]).length % 4 = 0 ∧ pad_len 4 3 ≤ 64 :=
  ⟨(align_padding_spec 2 (by decide) [1, 2, 3] [9]).1,
   (align_padding_spec 2 (by decide) [1, 2, 3] [9]).2.2.1,
   (align_padding_spec 2 (by decide) [1, 2, 3] [9]).2.2.2.2⟩

/-- C9 counterexample: `dump-commands` run on a nonexistent first directory
followed by a valid one aborts immediately — the valid directory's records
are never printed — refuting per-directory resilience for I/O errors. -/
theorem dump_commands_abort_counterexample :
    dump_main 1 [none, some ([0x47, 0x4C, 0x52, 0x52, 1, 0, 0, 0] ++ [7])] =
      ([], .error ()) ∧
    dump_one_dir 1 (some ([0x47, 0x4C, 0x52, 0x52, 1, 0, 0, 0] ++ [7])) =
      .ok [.callRecord [7]] :=
  ⟨rfl, rfl⟩

/-- C9 (amended): `dump-commands` prints an error and continues to the next
argument only for a bad magic number or a `Call`-size mismatch; an I/O
failure (failed open of the `calls` file, or a header read on a file
shorter than 8 bytes) propagates out of `main` via `?`, aborting the
remaining directory arguments. -/
theorem dump_commands_error_handling (size_of_call : Nat) (d : Option (List Nat))
    (dirs : List (Option (List Nat))) :
    (dump_one_dir size_of_call d = .error () →
      dump_main size_of_call (d :: dirs) = ([], .error ())) ∧
    (∀ lines, dump_one_dir size_of_call d = .ok lines →
      dump_main size_of_call (d :: dirs) =
        (lines ++ (dump_main size_of_call dirs).1, (dump_main size_of_call dirs).2)) ∧
    (d = none → dump_one_dir size_of_call d = .error ()) ∧
    (∀ bytes, d = some bytes → 8 ≤ bytes.length → bytes.take 4 ≠ glrr_magic_bytes →
      dump_one_dir size_of_call d = .ok [.badMagic]) ∧
    (∀ bytes, d = some bytes → 8 ≤ bytes.length → bytes.take 4 = glrr_magic_bytes →
      bytes.getD 4 0 ≠ size_of_call → dump_one_dir size_of_call d = .ok [.badCallSize]) := by
  refine ⟨?_, ?_, ?_, ?_, ?_⟩
  · intro h
    show (match dump_one_dir size_of_call d with
      | .error e => (([] : List DumpLine), Except.error e)
      | .ok lines =>
        ((lines ++ (dump_main size_of_call dirs).1, (dump_main size_of_call dirs).2) :
          List DumpLine × Except Unit Unit)) = _
    rw [h]
  · intro lines h
    show (match dump_one_dir size_of_call d with
      | .error e => (([] : List DumpLine), Except.error e)
      | .ok lines =>
        ((lines ++ (dump_main size_of_call dirs).1, (dump_main size_of_call dirs).2) :
          List DumpLine × Except Unit Unit)) = _
    rw [h]
  · intro h
    subst h
    rfl
  · intro bytes hd h8 hm
    subst hd
    unfold dump_one_dir
    dsimp only
    rw [if_neg (by omega), if_pos hm]
  · intro bytes hd h8 hm hsz
    subst hd
    unfold dump_one_dir
    dsimp only
    rw [if_neg (by omega), if_neg (by simp [hm]), if_pos hsz]

theorem dump_commands_error_handling_witness :
    dump_one_dir 1 none = .error () ∧
    dump_main 1 [none, some ([0x47, 0x4C, 0x52, 0x52, 1, 0, 0, 0] ++ [7])] =
      ([], .error ()) ∧
    dump_one_dir 1 (some [9, 9, 9, 9, 1, 0, 0, 0]) = .ok [.badMagic] := by
  refine ⟨(dump_commands_error_handling 1 none []).2.2.1 rfl, ?_, ?_⟩
  · exact (dump_commands_error_handling 1 none
      [some ([0x47, 0x4C, 0x52, 0x52, 1, 0, 0, 0] ++ [7])]).1 rfl
  · exact (dump_commands_error_handling 1 (some [9, 9, 9, 9, 1, 0, 0, 0]) []).2.2.2.1
      [9, 9, 9, 9, 1, 0, 0, 0] rfl (by decide) (by decide)

/-- C10: the run-length decoder is total and terminating on arbitrary
input — its loop's result is independent of the fuel bound once the bound
exceeds the buffer length (each iteration strictly consumes input), and a
run count of zero is accepted and expands to nothing: decoding `[0, 7]`
yields the empty sequence. -/
theorem read_u8_total :
    (∀ (buf : List Nat) (f1 f2 : Nat), buf.length < f1 → buf.length < f2 →
      read_general_aux leb_read f1 buf = read_general_aux leb_read f2 buf) ∧
    read_u8 [0, 7] = .ok [] := by
  constructor
  · intro buf f1 f2 h1 h2
    exact read_general_aux_fuel leb_read
      (fun b n r hh => leb_read_consumes b n r hh) buf.length buf le_rfl f1 f2 h1 h2
  · rfl

theorem read_u8_total_witness :
    read_general_aux leb_read 3 [0, 7] = read_general_aux leb_read 9 [0, 7] ∧
    read_u8 [0, 7] = .ok [] :=
  ⟨read_u8_total.1 [0, 7] 3 9 (by decide) (by decide), read_u8_total.2⟩

end GlReplay
